import Mathlib

/-!
Verification of the MCP_Filesystem server (`src/mcp-fs-http/server.ts`).

The development shallowly embeds the server's pure logic in Lean:

* the Node `path` module operations used by `safePath` (POSIX flavour:
  `path.sep = "/"`, `path.isAbsolute`, `path.resolve`, `path.normalize`)
  are modelled as pure string algebra over `List Char`;
* JavaScript's `String.prototype.trim` is modelled by `jsTrim`;
* the filesystem is modelled as an association list from absolute path
  strings to nodes (directories, or files holding their UTF-8 bytes);
  file text sent back to the client is represented by its UTF-8 bytes;
* each tool handler (`fs_read`, `read_file`, `fs_write`, `write_file`,
  `fs_append`, `fs_delete`) becomes a function from a filesystem state and
  its JSON arguments to an `Except` of a typed error or a result;
* the `/mcp` Express route and the session registry become a step function
  `handleMcp` over the list of registered session tokens, together with a
  list of observable side effects (session creation, transport closing).
-/

namespace MCPFS

/-! ## Path algebra (model of Node `path`, POSIX flavour) -/

/-- A path component (the text between two separators). -/
abbrev Piece := List Char

/-- Split a character list at every `'/'`, like `"…".split("/")`:
`splitChars "a/b".data = [['a'], ['b']]`, `splitChars [] = [[]]`. -/
def splitChars : List Char → List Piece
  | [] => [[]]
  | c :: rest =>
    if c = '/' then [] :: splitChars rest
    else
      match splitChars rest with
      | [] => [[c]]
      | p :: ps => (c :: p) :: ps

/-- Join components with `'/'` between them (no leading separator). -/
def interPieces : List Piece → List Char
  | [] => []
  | [p] => p
  | p :: q :: ps => p ++ '/' :: interPieces (q :: ps)

/-- An absolute path string from its components: leading `'/'`, then the
components joined by `'/'`.  `joinPieces [] = "/"`. -/
def joinPieces (ps : List Piece) : List Char := '/' :: interPieces ps

/-- One step of POSIX normalization over an absolute path's components:
empty components and `"."` are dropped, `".."` pops the previous component
(or is dropped at the root), anything else is kept. -/
def normStep (acc : List Piece) (p : Piece) : List Piece :=
  if p = [] ∨ p = ['.'] then acc
  else if p = ['.', '.'] then acc.dropLast
  else acc ++ [p]

/-- Normalize a component list (absolute-path semantics). -/
def normPieces (ps : List Piece) : List Piece := ps.foldl normStep []

/-- Model of Node's `path.resolve` / `path.normalize` applied to an
absolute path: collapse `.`, `..` and duplicate separators by pure string
algebra, drop any trailing separator. -/
def resolveAbs (s : String) : String := ⟨joinPieces (normPieces (splitChars s.data))⟩

/-- Model of `path.isAbsolute` (POSIX): the string starts with `'/'`. -/
def isAbsolute (s : String) : Bool :=
  match s.data with
  | [] => false
  | c :: _ => decide (c = '/')

/-- Boolean list-prefix test (model of JavaScript `startsWith` at the
character-list level). -/
def listLeads : List Char → List Char → Bool
  | [], _ => true
  | _ :: _, [] => false
  | a :: as, b :: bs => if a = b then listLeads as bs else false

/-- Model of JavaScript `s.startsWith(pre)`. -/
def strStartsWith (s pre : String) : Bool := listLeads pre.data s.data

/-- The whitespace characters removed by JavaScript `String.prototype.trim`
(space, tab, line terminators, vertical tab, form feed, NBSP, BOM). -/
def isJsWs (c : Char) : Bool :=
  c = ' ' ∨ c = '\t' ∨ c = '\n' ∨ c = '\r' ∨ c = Char.ofNat 11 ∨
  c = Char.ofNat 12 ∨ c = Char.ofNat 160 ∨ c = Char.ofNat 65279 ∨
  c = Char.ofNat 8232 ∨ c = Char.ofNat 8233

/-- Model of JavaScript `s.trim()`: drop leading and trailing whitespace. -/
def jsTrim (s : String) : String :=
  ⟨((s.data.dropWhile isJsWs).reverse.dropWhile isJsWs).reverse⟩

/-- A component is clean when it is nonempty, is neither `"."` nor `".."`,
and contains no separator: exactly the components that survive
normalization. -/
abbrev Clean (p : Piece) : Prop :=
  p ≠ [] ∧ p ≠ ['.'] ∧ p ≠ ['.', '.'] ∧ '/' ∉ p

/-- All components of a list are clean. -/
abbrev CleanL (ps : List Piece) : Prop := ∀ p ∈ ps, Clean p

/-- The configured root (`allowedBaseAbs = path.resolve(ALLOWED_BASE)`) is
an already-normalized absolute path: normalizing it is the identity. -/
abbrev NormBase (base : String) : Prop := resolveAbs base = base

/-! ## Errors and the filesystem model -/

/-- The typed failures raised by the handlers.  `containment` carries the
offending normalized path and the configured root, mirroring
`Path not allowed: <p> (allowed base: <b>)`; `forbiddenTarget` mirrors
`Cannot delete ALLOWED_BASE root directory itself.`. -/
inductive FsErr where
  | containment (offending : String) (root : String)
  | forbiddenTarget
  | notFound (p : String)
  | notFile (p : String)
  | notDir (p : String)
  | isDir (p : String)
  deriving DecidableEq, Repr

/-- Decidable equality of `Except` results, used to evaluate the model on
concrete inputs. -/
instance exceptDecEq {e a : Type} [DecidableEq e] [DecidableEq a] :
    DecidableEq (Except e a)
  | .error x, .error y =>
    if h : x = y then .isTrue (by rw [h]) else .isFalse (fun hc => h (Except.error.inj hc))
  | .error _, .ok _ => .isFalse Except.noConfusion
  | .ok _, .error _ => .isFalse Except.noConfusion
  | .ok x, .ok y =>
    if h : x = y then .isTrue (by rw [h]) else .isFalse (fun hc => h (Except.ok.inj hc))

/-- A filesystem node: a directory, or a file holding its UTF-8 bytes. -/
inductive FNode where
  | dir
  | file (bytes : List UInt8)
  deriving DecidableEq, Repr

/-- The filesystem: an association list from absolute path strings to
nodes; the first matching entry wins (later inserts shadow earlier ones). -/
abbrev FS := List (String × FNode)

/-- Look a path up in the filesystem (model of `fs.stat` succeeding). -/
def fsLookup (fsys : FS) (k : String) : Option FNode :=
  match fsys with
  | [] => none
  | (k', v) :: rest => if k' = k then some v else fsLookup rest k

/-- UTF-8 encoding of one Unicode scalar value (as Node's `Buffer` does
for `"utf8"`). -/
def charUtf8 (c : Char) : List UInt8 :=
  let n := c.toNat
  if n < 128 then [UInt8.ofNat n]
  else if n < 2048 then
    [UInt8.ofNat (192 + n / 64), UInt8.ofNat (128 + n % 64)]
  else if n < 65536 then
    [UInt8.ofNat (224 + n / 4096), UInt8.ofNat (128 + n / 64 % 64),
     UInt8.ofNat (128 + n % 64)]
  else
    [UInt8.ofNat (240 + n / 262144), UInt8.ofNat (128 + n / 4096 % 64),
     UInt8.ofNat (128 + n / 64 % 64), UInt8.ofNat (128 + n % 64)]

/-- UTF-8 encoding of a string (what `fs.writeFile(abs, s, "utf8")`
stores). -/
def utf8Bytes (s : String) : List UInt8 := s.data.flatMap charUtf8

/-- Model of POSIX `path.dirname` on the normalized absolute paths the
server produces: everything before the last separator (`"/"` for a
top-level entry, `"."` if there is no separator at all). -/
def dirname (p : String) : String :=
  match p.data.reverse.dropWhile (fun c => !(c = '/')) with
  | [] => "."
  | _ :: rest => if rest.isEmpty then "/" else ⟨rest.reverse⟩

/-- Create, in order, each directory of the chain `done ++ [c₁]`,
`done ++ [c₁, c₂]`, …, failing if an existing file is in the way: the
recursion inside the model of `fs.mkdir(d, recursive: true)`. -/
def mkdirPieces (fsys : FS) (done : List Piece) (todo : List Piece) : Except FsErr FS :=
  match todo with
  | [] => .ok fsys
  | c :: rest =>
    let cur : String := ⟨joinPieces (done ++ [c])⟩
    match fsLookup fsys cur with
    | some (.file _) => .error (.notDir cur)
    | some .dir => mkdirPieces fsys (done ++ [c]) rest
    | none => mkdirPieces ((cur, .dir) :: fsys) (done ++ [c]) rest

/-- Model of `fs.mkdir(p, recursive: true)`: create every missing
ancestor, succeed if the directories already exist. -/
def mkdirRec (fsys : FS) (p : String) : Except FsErr FS :=
  mkdirPieces fsys [] (normPieces (splitChars p.data))

/-- The directory paths `mkdirPieces done todo` walks through, in order. -/
def chainPaths (done : List Piece) (todo : List Piece) : List String :=
  match todo with
  | [] => []
  | c :: rest => (⟨joinPieces (done ++ [c])⟩ : String) :: chainPaths (done ++ [c]) rest

/-! ## safePath and the tool handlers -/

/-- Model of the server's `safePath` (`server.ts` lines 49–65): trim the
raw argument; empty or `"."` means the root itself; otherwise resolve the
path (absolute paths taken verbatim, relative ones joined to the root),
normalize, and accept iff the result is the root or starts with
`root + "/"`; otherwise throw `Path not allowed`. -/
def safePath (base : String) (raw : Option String) : Except FsErr String :=
  let trimmed := jsTrim (raw.getD "")
  if trimmed = "" ∨ trimmed = "." then .ok base
  else
    let abs := if isAbsolute trimmed then resolveAbs trimmed
               else resolveAbs (base ++ "/" ++ trimmed)
    let normAbs := resolveAbs abs
    let normBase := resolveAbs base
    if ¬ (strStartsWith normAbs (normBase ++ "/") = true) ∧ ¬ (normAbs = normBase)
    then .error (.containment normAbs normBase)
    else .ok normAbs

/-- The normalized absolute candidate `safePath` compares against the
root: the root itself for an empty or `"."` request, otherwise the
normalization of the absolute resolution of the trimmed request. -/
def pathCandidate (base : String) (raw : Option String) : String :=
  let trimmed := jsTrim (raw.getD "")
  if trimmed = "" ∨ trimmed = "." then base
  else resolveAbs (if isAbsolute trimmed then trimmed else base ++ "/" ++ trimmed)

/-- The path-relative-to-root form of an accepted resolved path: empty for
the root itself, otherwise the text after `root + "/"`. -/
def relToRoot (base q : String) : String :=
  if q = base then "" else ⟨q.data.drop (base.data.length + 1)⟩

/-- Model of the `fs_read` tool handler (`server.ts` lines 99–121): resolve
the path, require a file, read its bytes and truncate them to
`maxBytes` (default 1 MiB).  The returned text is represented by its
UTF-8 bytes. -/
def fs_read (base : String) (fsys : FS) (p : Option String) (maxBytes : Option Nat) :
    Except FsErr (List UInt8) :=
  match safePath base p with
  | .error e => .error e
  | .ok abs =>
    match fsLookup fsys abs with
    | none => .error (.notFound abs)
    | some .dir => .error (.notFile abs)
    | some (.file buf) =>
      let limit := maxBytes.getD (1024 * 1024)
      .ok (buf.take (min buf.length limit))

/-- Model of the `read_file` tool handler (`server.ts` lines 124–140), the
alias of `fs_read`: identical logic, no console logging. -/
def read_file (base : String) (fsys : FS) (p : Option String) (maxBytes : Option Nat) :
    Except FsErr (List UInt8) :=
  match safePath base p with
  | .error e => .error e
  | .ok abs =>
    match fsLookup fsys abs with
    | none => .error (.notFound abs)
    | some .dir => .error (.notFile abs)
    | some (.file buf) =>
      let limit := maxBytes.getD (1024 * 1024)
      .ok (buf.take (min buf.length limit))

/-- Model of the `fs_write` tool handler (`server.ts` lines 147–164):
resolve the path, create parent directories, create or fully overwrite the
file with the UTF-8 bytes of `content ?? ""`, and confirm with
`Written <content?.length ?? 0> chars to <abs>`. -/
def fs_write (base : String) (fsys : FS) (p : Option String) (content : Option String) :
    Except FsErr (FS × String) :=
  match safePath base p with
  | .error e => .error e
  | .ok abs =>
    match mkdirRec fsys (dirname abs) with
    | .error e => .error e
    | .ok fs1 =>
      match fsLookup fs1 abs with
      | some .dir => .error (.isDir abs)
      | _ =>
        .ok ((abs, .file (utf8Bytes (content.getD ""))) :: fs1,
             "Written " ++ toString ((content.map String.length).getD 0) ++
             " chars to " ++ abs)

/-- Model of the `write_file` tool handler (`server.ts` lines 167–180), the
alias of `fs_write`: identical logic, no console logging. -/
def write_file (base : String) (fsys : FS) (p : Option String) (content : Option String) :
    Except FsErr (FS × String) :=
  match safePath base p with
  | .error e => .error e
  | .ok abs =>
    match mkdirRec fsys (dirname abs) with
    | .error e => .error e
    | .ok fs1 =>
      match fsLookup fs1 abs with
      | some .dir => .error (.isDir abs)
      | _ =>
        .ok ((abs, .file (utf8Bytes (content.getD ""))) :: fs1,
             "Written " ++ toString ((content.map String.length).getD 0) ++
             " chars to " ++ abs)

/-- Model of the `fs_append` tool handler (`server.ts` lines 183–199):
resolve the path, create parent directories, append the UTF-8 bytes of
`content ?? ""` (creating the file if absent), and confirm with
`Appended <content?.length ?? 0> chars to <abs>`. -/
def fs_append (base : String) (fsys : FS) (p : Option String) (content : Option String) :
    Except FsErr (FS × String) :=
  match safePath base p with
  | .error e => .error e
  | .ok abs =>
    match mkdirRec fsys (dirname abs) with
    | .error e => .error e
    | .ok fs1 =>
      match fsLookup fs1 abs with
      | some .dir => .error (.isDir abs)
      | some (.file bs) =>
        .ok ((abs, .file (bs ++ utf8Bytes (content.getD ""))) :: fs1,
             "Appended " ++ toString ((content.map String.length).getD 0) ++
             " chars to " ++ abs)
      | none =>
        .ok ((abs, .file (utf8Bytes (content.getD ""))) :: fs1,
             "Appended " ++ toString ((content.map String.length).getD 0) ++
             " chars to " ++ abs)

/-- Remove one file entry (model of `fs.unlink`). -/
def removeEntry (fsys : FS) (k : String) : FS :=
  fsys.filter (fun e => !(e.1 = k))

/-- Remove a directory entry and everything below it (model of
`fs.rm(abs, recursive: true, force: true)`). -/
def removeTree (fsys : FS) (k : String) : FS :=
  fsys.filter (fun e => !(e.1 = k) && !(strStartsWith e.1 (k ++ "/")))

/-- Model of the `fs_delete` tool handler (`server.ts` lines 240–264):
resolve the path; refuse to delete the root itself before touching the
filesystem; then stat and remove the file or directory tree. -/
def fs_delete (base : String) (fsys : FS) (p : Option String) :
    Except FsErr (FS × String) :=
  match safePath base p with
  | .error e => .error e
  | .ok abs =>
    if abs = base then .error .forbiddenTarget
    else
      match fsLookup fsys abs with
      | none => .error (.notFound abs)
      | some .dir => .ok (removeTree fsys abs, "Deleted: " ++ abs)
      | some (.file _) => .ok (removeEntry fsys abs, "Deleted: " ++ abs)

/-! ## Session registry and the `/mcp` route -/

/-- The HTTP method of a request to `/mcp`. -/
inductive Method where
  | get
  | post
  | delete
  | other
  deriving DecidableEq, Repr

/-- The response produced by the `/mcp` route or the admin route:
a handled SSE stream or JSON-RPC exchange on the named session, the
400 rejection with its JSON-RPC error code, an empty 200, a textual 200,
or 405. -/
inductive Resp where
  | stream (sid : String)
  | rpc (sid : String)
  | badRequest (jsonrpcCode : Int)
  | okEmpty
  | okText (body : String)
  | notAllowed
  deriving DecidableEq, Repr

/-- Observable side effects of one request: a session entry was created
(a new transport and `McpServer` were bound under the token), or a
session's transport was closed. -/
inductive Effect where
  | created (sid : String)
  | transportClosed (sid : String)
  deriving DecidableEq, Repr

/-- The registry is the list of registered session tokens (the key set of
the `sessions` map; every key holds one transport/server pair). -/
abbrev Registry := List String

/-- Token membership in the registry (model of `sessions.get(sid)`
returning an entry). -/
def hasToken : Registry → String → Bool
  | [], _ => false
  | s :: rest, t => if s = t then true else hasToken rest t

/-- Model of `sessions.delete(sid)`: remove the token (map keys are
unique, so removing every occurrence models the map deletion). -/
def removeToken : Registry → String → Registry
  | [], _ => []
  | s :: rest, t => if s = t then removeToken rest t else s :: removeToken rest t

/-- Model of `headerSid ? sessions.get(headerSid) : undefined`. -/
def lookupSession (sessions : Registry) (headerSid : Option String) : Option String :=
  match headerSid with
  | none => none
  | some s => if hasToken sessions s then some s else none

/-- Model of the `app.all("/mcp")` route (`server.ts` lines 346–416).
`fresh` is the UUID `createSession` would mint; `isInit` is the value of
`isInitializeRequest(req.body)` for a POST.  Returns the new registry, the
response, and the observable effects. -/
def handleMcp (sessions : Registry) (fresh : String) (m : Method)
    (headerSid : Option String) (isInit : Bool) :
    Registry × Resp × List Effect :=
  let entry := lookupSession sessions headerSid
  match m with
  | .get =>
    match entry with
    | none => (fresh :: sessions, .stream fresh, [.created fresh])
    | some s => (sessions, .stream s, [])
  | .post =>
    match entry with
    | none =>
      if !isInit then (sessions, .badRequest (-32000), [])
      else (fresh :: sessions, .rpc fresh, [.created fresh])
    | some s => (sessions, .rpc s, [])
  | .delete =>
    match entry, headerSid with
    | some s, some _ => (removeToken sessions s, .okEmpty, [.transportClosed s])
    | _, _ => (sessions, .okEmpty, [])
  | .other => (sessions, .notAllowed, [])

/-- Model of `app.post("/admin/clear-sessions")` (`server.ts` lines
419–422): `sessions.clear()` then `200 "cleared"`; no transport is
closed. -/
def adminClear (_sessions : Registry) : Registry × Resp × List Effect :=
  ([], .okText "cleared", [])

/-! ## Concrete states used by witnesses and counterexamples -/

/-- A filesystem holding one file `/b/f` with content `"x"`, used to
exhibit the behaviour of `fs_append` on a pre-existing file. -/
def exFS0 : FS := [("/b/f", .file [120])]

/-- `exFS0` after `fs_append "f" "a"`. -/
def exFSA : FS := [("/b/f", .file [120, 97]), ("/b", .dir), ("/b/f", .file [120])]

/-- `exFSA` after `fs_append "f" "b"`. -/
def exFSB : FS :=
  [("/b/f", .file [120, 97, 98]), ("/b/f", .file [120, 97]), ("/b", .dir),
   ("/b/f", .file [120])]

/-- The filesystem produced by `fs_write "/b" [] "f" "hi"`. -/
def exFSW : FS := [("/b/f", .file [104, 105]), ("/b", .dir)]

/-- `exFS0` after `fs_append "f"` with absent content. -/
def exFSC : FS := [("/b/f", .file [120]), ("/b", .dir), ("/b/f", .file [120])]

/-! ## Lemmas about the path algebra -/

theorem splitChars_ne_nil (cs : List Char) : splitChars cs ≠ [] := by
  cases cs with
  | nil => simp [splitChars]
  | cons c rest =>
    simp only [splitChars]
    split
    · simp
    · split <;> simp

theorem mem_splitChars_no_slash (cs : List Char) (p : Piece)
    (hp : p ∈ splitChars cs) : '/' ∉ p := by
  induction cs generalizing p with
  | nil =>
    simp only [splitChars, List.mem_singleton] at hp
    subst hp; simp
  | cons c rest ih =>
    simp only [splitChars] at hp
    by_cases hc : c = '/'
    · rw [if_pos hc] at hp
      rcases List.mem_cons.mp hp with h | h
      · subst h; simp
      · exact ih p h
    · rw [if_neg hc] at hp
      cases hsc : splitChars rest with
      | nil => exact absurd hsc (splitChars_ne_nil rest)
      | cons q qs =>
        rw [hsc] at hp
        rcases List.mem_cons.mp hp with h | h
        · subst h
          intro hmem
          rcases List.mem_cons.mp hmem with h1 | h1
          · exact hc h1.symm
          · exact ih q (by rw [hsc]; exact List.mem_cons_self q qs) h1
        · exact ih p (by rw [hsc]; exact List.mem_cons.mpr (Or.inr h))

theorem splitChars_no_slash (p : Piece) (hp : '/' ∉ p) : splitChars p = [p] := by
  induction p with
  | nil => rfl
  | cons c rest ih =>
    have hc : c ≠ '/' := fun h => hp (h ▸ List.mem_cons_self c rest)
    have hrest : '/' ∉ rest := fun h => hp (List.mem_cons.mpr (Or.inr h))
    simp only [splitChars, if_neg hc, ih hrest]

theorem splitChars_append_slash (p : Piece) (t : List Char) (hp : '/' ∉ p) :
    splitChars (p ++ '/' :: t) = p :: splitChars t := by
  induction p with
  | nil => simp [splitChars]
  | cons c rest ih =>
    have hc : c ≠ '/' := fun h => hp (h ▸ List.mem_cons_self c rest)
    have hrest : '/' ∉ rest := fun h => hp (List.mem_cons.mpr (Or.inr h))
    simp only [List.cons_append, splitChars, if_neg hc, List.append_eq]
    rw [ih hrest]

theorem interPieces_cons2 (p q : Piece) (l : List Piece) :
    interPieces (p :: q :: l) = p ++ '/' :: interPieces (q :: l) := rfl

theorem splitChars_inter (ps : List Piece) (h : CleanL ps) (hne : ps ≠ []) :
    splitChars (interPieces ps) = ps := by
  induction ps with
  | nil => exact absurd rfl hne
  | cons p rest ih =>
    cases rest with
    | nil =>
      simp only [interPieces]
      exact splitChars_no_slash p (h p (List.mem_cons_self p [])).2.2.2
    | cons q qs =>
      rw [interPieces_cons2,
        splitChars_append_slash p _ (h p (List.mem_cons_self p (q :: qs))).2.2.2,
        ih (fun r hr => h r (List.mem_cons.mpr (Or.inr hr))) (by simp)]

theorem splitChars_inter_append (ps : List Piece) (t : List Char)
    (h : CleanL ps) (hne : ps ≠ []) :
    splitChars (interPieces ps ++ '/' :: t) = ps ++ splitChars t := by
  induction ps with
  | nil => exact absurd rfl hne
  | cons p rest ih =>
    cases rest with
    | nil =>
      simp only [interPieces]
      rw [splitChars_append_slash p t (h p (List.mem_cons_self p [])).2.2.2]
      rfl
    | cons q qs =>
      rw [interPieces_cons2, List.append_assoc, List.cons_append,
        splitChars_append_slash p _ (h p (List.mem_cons_self p (q :: qs))).2.2.2,
        ih (fun r hr => h r (List.mem_cons.mpr (Or.inr hr))) (by simp)]
      rfl

theorem normStep_clean (acc : List Piece) (p : Piece) (hp : Clean p) :
    normStep acc p = acc ++ [p] := by
  obtain ⟨h1, h2, h3, _⟩ := hp
  simp [normStep, h1, h2, h3]

theorem foldl_normStep_clean (ps : List Piece) (acc : List Piece) (h : CleanL ps) :
    List.foldl normStep acc ps = acc ++ ps := by
  induction ps generalizing acc with
  | nil => simp
  | cons p rest ih =>
    rw [List.foldl_cons, normStep_clean acc p (h p (List.mem_cons_self p rest)),
      ih _ (fun q hq => h q (List.mem_cons.mpr (Or.inr hq)))]
    simp

theorem cleanL_normStep (acc : List Piece) (p : Piece)
    (hacc : CleanL acc) (hp : '/' ∉ p) : CleanL (normStep acc p) := by
  unfold normStep
  by_cases h1 : p = [] ∨ p = ['.']
  · rw [if_pos h1]; exact hacc
  · rw [if_neg h1]
    by_cases h2 : p = ['.', '.']
    · rw [if_pos h2]
      exact fun q hq => hacc q ((List.dropLast_sublist acc).mem hq)
    · rw [if_neg h2]
      intro q hq
      rcases List.mem_append.mp hq with h | h
      · exact hacc q h
      · rw [List.mem_singleton] at h
        subst h
        exact ⟨fun hh => h1 (Or.inl hh), fun hh => h1 (Or.inr hh), h2, hp⟩

theorem cleanL_foldl (ps : List Piece) (acc : List Piece)
    (hps : ∀ p ∈ ps, '/' ∉ p) (hacc : CleanL acc) :
    CleanL (List.foldl normStep acc ps) := by
  induction ps generalizing acc with
  | nil => exact hacc
  | cons p rest ih =>
    rw [List.foldl_cons]
    exact ih _ (fun q hq => hps q (List.mem_cons.mpr (Or.inr hq)))
      (cleanL_normStep acc p hacc (hps p (List.mem_cons_self p rest)))

theorem cleanL_normPieces (cs : List Char) : CleanL (normPieces (splitChars cs)) :=
  cleanL_foldl _ [] (fun p hp => mem_splitChars_no_slash cs p hp)
    (fun p hp => absurd hp (List.not_mem_nil p))

theorem normPieces_cons_nil (ps : List Piece) : normPieces ([] :: ps) = normPieces ps := by
  simp [normPieces, normStep]

theorem resolveAbs_join (ps : List Piece) (h : CleanL ps) :
    resolveAbs ⟨joinPieces ps⟩ = ⟨joinPieces ps⟩ := by
  show String.mk (joinPieces (normPieces (splitChars ('/' :: interPieces ps)))) = _
  rw [show splitChars ('/' :: interPieces ps) = [] :: splitChars (interPieces ps)
      from by simp [splitChars]]
  cases hps : ps with
  | nil => rfl
  | cons p rest =>
    rw [← hps, splitChars_inter ps h (by rw [hps]; simp), normPieces_cons_nil,
      show normPieces ps = ps from (foldl_normStep_clean ps [] h).trans (by simp)]

theorem resolveAbs_form (s : String) :
    ∃ ps, CleanL ps ∧ resolveAbs s = ⟨joinPieces ps⟩ :=
  ⟨normPieces (splitChars s.data), cleanL_normPieces _, rfl⟩

theorem resolveAbs_idem (s : String) : resolveAbs (resolveAbs s) = resolveAbs s := by
  obtain ⟨ps, hps, heq⟩ := resolveAbs_form s
  rw [heq, resolveAbs_join ps hps]

theorem str_ext (a b : String) (h : a.data = b.data) : a = b := by
  cases a; cases b; exact congrArg String.mk h

theorem interPieces_append (ps qs : List Piece) (hps : ps ≠ []) (hqs : qs ≠ []) :
    interPieces (ps ++ qs) = interPieces ps ++ '/' :: interPieces qs := by
  induction ps with
  | nil => exact absurd rfl hps
  | cons p rest ih =>
    cases rest with
    | nil =>
      cases qs with
      | nil => exact absurd rfl hqs
      | cons q qs' => simp [interPieces_cons2, interPieces]
    | cons r rs =>
      have : (p :: r :: rs) ++ qs = p :: ((r :: rs) ++ qs) := rfl
      rw [this]
      cases hq : (r :: rs) ++ qs with
      | nil => simp at hq
      | cons x xs =>
        rw [← hq, interPieces_cons2]
        rw [show interPieces (p :: (r :: rs ++ qs)) = p ++ '/' :: interPieces (r :: rs ++ qs)
            from by rw [hq]; exact interPieces_cons2 p x xs]
        rw [ih (by simp)]
        simp

theorem interPieces_cons_ne_nil (q : Piece) (l : List Piece) (hq : Clean q) :
    interPieces (q :: l) ≠ [] := by
  cases l with
  | nil => exact hq.1
  | cons r rs =>
    rw [interPieces_cons2]
    intro h
    exact hq.1 (List.append_eq_nil.mp h).1

theorem joinPieces_inj (ps qs : List Piece) (hp : CleanL ps) (hq : CleanL qs)
    (h : joinPieces ps = joinPieces qs) : ps = qs := by
  have h' : interPieces ps = interPieces qs := by
    have := List.cons.injEq '/' (interPieces ps) '/' (interPieces qs) ▸ h
    exact (List.cons.inj h).2
  cases ps with
  | nil =>
    cases qs with
    | nil => rfl
    | cons q l =>
      exact absurd h'.symm (interPieces_cons_ne_nil q l (hq q (List.mem_cons_self q l)))
  | cons p l =>
    cases qs with
    | nil =>
      exact absurd h' (interPieces_cons_ne_nil p l (hp p (List.mem_cons_self p l)))
    | cons q m =>
      rw [← splitChars_inter (p :: l) hp (by simp), ← splitChars_inter (q :: m) hq (by simp), h']

theorem dropWhile_append_all (pfn : Char → Bool) (l r : List Char)
    (h : ∀ a ∈ l, pfn a = true) :
    List.dropWhile pfn (l ++ r) = List.dropWhile pfn r := by
  induction l with
  | nil => rfl
  | cons a as ih =>
    rw [List.cons_append, List.dropWhile_cons, if_pos (h a (List.mem_cons_self a as))]
    exact ih (fun b hb => h b (List.mem_cons.mpr (Or.inr hb)))

theorem dirname_join (ps : List Piece) (h : CleanL ps) :
    dirname ⟨joinPieces ps⟩ = ⟨joinPieces ps.dropLast⟩ := by
  rcases List.eq_nil_or_concat' ps with rfl | ⟨qs, l, rfl⟩
  · rfl
  · have hl : Clean l := h l (by simp)
    have hslash : ∀ a ∈ l.reverse, (!(a = '/') : Bool) = true := by
      intro a ha
      simp only [Bool.not_eq_true']
      exact decide_eq_false (fun hEq => hl.2.2.2 (hEq ▸ List.mem_reverse.mp ha))
    unfold dirname
    cases hqs : qs with
    | nil =>
      show (match (String.mk (joinPieces [l])).data.reverse.dropWhile
          (fun c => !(c = '/')) with
        | [] => "."
        | _ :: rest => if rest.isEmpty then "/" else ⟨rest.reverse⟩) = _
      have : (String.mk (joinPieces [l])).data.reverse = l.reverse ++ ['/'] := by
        show ('/' :: interPieces [l]).reverse = _
        rw [show interPieces [l] = l from rfl, List.reverse_cons]
      rw [this, dropWhile_append_all _ _ _ hslash]
      rfl
    | cons q qs' =>
      rw [← hqs]
      have hqne : qs ≠ [] := by rw [hqs]; simp
      have hinter : interPieces (qs ++ [l]) = interPieces qs ++ '/' :: l := by
        rw [interPieces_append qs [l] hqne (by simp)]
        rfl
      show (match (String.mk (joinPieces (qs ++ [l]))).data.reverse.dropWhile
          (fun c => !(c = '/')) with
        | [] => "."
        | _ :: rest => if rest.isEmpty then "/" else ⟨rest.reverse⟩) = _
      have hrev : (String.mk (joinPieces (qs ++ [l]))).data.reverse
          = l.reverse ++ '/' :: ((interPieces qs).reverse ++ ['/']) := by
        show ('/' :: interPieces (qs ++ [l])).reverse = _
        rw [List.reverse_cons, hinter, List.reverse_append, List.reverse_cons]
        simp
      rw [hrev, dropWhile_append_all _ _ _ hslash]
      rw [show List.dropWhile (fun c => !(c = '/')) ('/' :: ((interPieces qs).reverse ++ ['/']))
          = '/' :: ((interPieces qs).reverse ++ ['/']) from by
        rw [List.dropWhile_cons]; simp]
      have hne : ((interPieces qs).reverse ++ ['/']).isEmpty = false := by
        simp [List.isEmpty_iff]
      rw [List.dropLast_concat]
      show (if ((interPieces qs).reverse ++ ['/']).isEmpty then "/"
        else ⟨((interPieces qs).reverse ++ ['/']).reverse⟩) = _
      rw [hne]
      show String.mk (((interPieces qs).reverse ++ ['/']).reverse) = _
      rw [List.reverse_append, List.reverse_reverse]
      rfl

theorem listLeads_iff (p s : List Char) :
    listLeads p s = true ↔ ∃ t, s = p ++ t := by
  induction p generalizing s with
  | nil => simp [listLeads]
  | cons a as ih =>
    cases s with
    | nil =>
      simp only [listLeads]
      constructor
      · intro h; exact absurd h (by simp)
      · rintro ⟨t, ht⟩; simp at ht
    | cons b bs =>
      simp only [listLeads]
      by_cases hab : a = b
      · subst hab
        rw [if_pos rfl, ih bs]
        constructor
        · rintro ⟨t, rfl⟩; exact ⟨t, rfl⟩
        · rintro ⟨t, ht⟩
          exact ⟨t, (List.cons.inj ht).2⟩
      · rw [if_neg hab]
        constructor
        · intro h; exact absurd h (by simp)
        · rintro ⟨t, ht⟩
          exact absurd (List.cons.inj ht).1.symm hab

theorem take_min_len {α : Type} (l : List α) (n : Nat) :
    l.take (min l.length n) = l.take n := by
  rw [Nat.min_comm, ← List.take_take, List.take_length]

theorem utf8Bytes_append (a b : String) :
    utf8Bytes (a ++ b) = utf8Bytes a ++ utf8Bytes b := by
  unfold utf8Bytes
  rw [String.data_append, List.flatMap_append]

/-! ## Characterization of safePath -/

theorem safePath_ok_resolved (base : String) (raw : Option String) (q : String)
    (h : safePath base raw = .ok q) : q = base ∨ ∃ s, q = resolveAbs s := by
  simp only [safePath] at h
  by_cases hs : jsTrim (raw.getD "") = "" ∨ jsTrim (raw.getD "") = "."
  · rw [if_pos hs] at h
    left
    injection h with h'
    exact h'.symm
  · rw [if_neg hs] at h
    split at h <;> split at h
    · exact Except.noConfusion h
    · injection h with h'
      exact Or.inr ⟨_, h'.symm⟩
    · exact Except.noConfusion h
    · injection h with h'
      exact Or.inr ⟨_, h'.symm⟩

theorem safePath_ok_norm (base : String) (hb : NormBase base) (raw : Option String)
    (q : String) (h : safePath base raw = .ok q) : resolveAbs q = q := by
  rcases safePath_ok_resolved base raw q h with rfl | ⟨s, rfl⟩
  · exact hb
  · exact resolveAbs_idem s

theorem safePath_ok_form (base : String) (hb : NormBase base) (raw : Option String)
    (q : String) (h : safePath base raw = .ok q) :
    ∃ ps, CleanL ps ∧ q = ⟨joinPieces ps⟩ := by
  have hn := safePath_ok_norm base hb raw q h
  obtain ⟨ps, hps, heq⟩ := resolveAbs_form q
  exact ⟨ps, hps, by rw [← hn, heq]⟩

theorem safePath_ok_iff (base : String) (hb : NormBase base) (raw : Option String)
    (q : String) :
    safePath base raw = .ok q ↔
      q = pathCandidate base raw ∧ (q = base ∨ strStartsWith q (base ++ "/") = true) := by
  have hnb : resolveAbs base = base := hb
  simp only [safePath, pathCandidate]
  by_cases hs : jsTrim (raw.getD "") = "" ∨ jsTrim (raw.getD "") = "."
  · simp only [if_pos hs]
    constructor
    · intro h
      injection h with h'
      exact ⟨h'.symm, Or.inl h'.symm⟩
    · rintro ⟨rfl, _⟩
      rfl
  · simp only [if_neg hs]
    have hcand : resolveAbs (if isAbsolute (jsTrim (raw.getD "")) = true
          then resolveAbs (jsTrim (raw.getD ""))
          else resolveAbs (base ++ "/" ++ jsTrim (raw.getD "")))
        = resolveAbs (if isAbsolute (jsTrim (raw.getD "")) = true
          then jsTrim (raw.getD "") else base ++ "/" ++ jsTrim (raw.getD "")) := by
      by_cases hab : isAbsolute (jsTrim (raw.getD "")) = true
      · rw [if_pos hab, if_pos hab, resolveAbs_idem]
      · rw [if_neg hab, if_neg hab, resolveAbs_idem]
    rw [hcand, hnb]
    by_cases hg : ¬ (strStartsWith (resolveAbs (if isAbsolute (jsTrim (raw.getD "")) = true
          then jsTrim (raw.getD "") else base ++ "/" ++ jsTrim (raw.getD ""))) (base ++ "/") = true)
        ∧ ¬ (resolveAbs (if isAbsolute (jsTrim (raw.getD "")) = true
          then jsTrim (raw.getD "") else base ++ "/" ++ jsTrim (raw.getD "")) = base)
    · rw [if_pos hg]
      constructor
      · intro h
        exact absurd h (by simp)
      · rintro ⟨rfl, hor⟩
        rcases hor with h | h
        · exact absurd h hg.2
        · exact absurd h hg.1
    · rw [if_neg hg]
      constructor
      · intro h
        injection h with h'
        subst h'
        refine ⟨rfl, ?_⟩
        rcases not_and_or.mp hg with h | h
        · exact Or.inr (not_not.mp h)
        · exact Or.inl (not_not.mp h)
      · rintro ⟨rfl, _⟩
        rfl

theorem interPieces_cons_head (p : Piece) (ps : List Piece) (t : List Char)
    (hp : Clean p) (h : interPieces (p :: ps) = '/' :: t) : False := by
  cases p with
  | nil => exact hp.1 rfl
  | cons c cs =>
    have hc : c = '/' := by
      cases ps with
      | nil => exact (List.cons.inj h).1
      | cons r rs =>
        rw [interPieces_cons2, List.cons_append] at h
        exact (List.cons.inj h).1
    exact hp.2.2.2 (hc ▸ List.mem_cons_self c cs)

theorem safePath_relative_roundtrip (base : String) (hb : NormBase base) (q : String)
    (pq : List Piece) (hclean : CleanL pq) (hform : q = ⟨joinPieces pq⟩)
    (hpre : strStartsWith q (base ++ "/") = true)
    (ht : jsTrim (relToRoot base q) = relToRoot base q) :
    safePath base (some (relToRoot base q)) = .ok q := by
  have hnb : resolveAbs base = base := hb
  obtain ⟨pb, hpb, hbase⟩ : ∃ ps, CleanL ps ∧ base = ⟨joinPieces ps⟩ := by
    obtain ⟨ps, hps, heq⟩ := resolveAbs_form base
    exact ⟨ps, hps, by rw [← hnb, heq]⟩
  obtain ⟨t, hqdata⟩ : ∃ t, q.data = (base.data ++ ['/']) ++ t := by
    obtain ⟨t, htq⟩ := (listLeads_iff (base ++ "/").data q.data).mp hpre
    exact ⟨t, by rw [htq, String.data_append]⟩
  have hqdata' : q.data = base.data ++ '/' :: t := by
    rw [hqdata, List.append_assoc]
    rfl
  have hqb : q ≠ base := by
    intro hEq
    have : q.data.length = base.data.length := by rw [hEq]
    rw [hqdata] at this
    simp [List.length_append] at this
  have hrel : relToRoot base q = ⟨t⟩ := by
    unfold relToRoot
    rw [if_neg hqb, hqdata]
    have hlen : (base.data ++ ['/']).length = base.data.length + 1 := by
      rw [List.length_append]
      rfl
    rw [← hlen, List.drop_left]
  -- relate the component decompositions of q, base and t
  have hinter : interPieces pq = interPieces pb ++ '/' :: t := by
    have h1 : ('/' :: interPieces pq) = ('/' :: interPieces pb) ++ '/' :: t := by
      have lq : q.data = '/' :: interPieces pq := by rw [hform]; rfl
      have lb : base.data = '/' :: interPieces pb := by rw [hbase]; rfl
      rw [← lq, ← lb, ← hqdata']
    rw [List.cons_append] at h1
    exact (List.cons.inj h1).2
  have hpbne : pb ≠ [] := by
    intro hEq
    subst hEq
    cases hpq : pq with
    | nil => rw [hpq] at hinter; exact List.noConfusion hinter
    | cons r rs =>
      rw [hpq] at hinter
      exact interPieces_cons_head r rs t (by rw [hpq] at hclean; exact hclean r (List.mem_cons_self r rs)) hinter
  have hpqne : pq ≠ [] := by
    intro hEq
    rw [hEq] at hinter
    have : ([] : List Char) = interPieces pb ++ '/' :: t := hinter
    cases hpb0 : interPieces pb <;> rw [hpb0] at this <;> exact List.noConfusion this
  have hsplit : pq = pb ++ splitChars t := by
    rw [← splitChars_inter pq hclean hpqne, hinter, splitChars_inter_append pb t hpb hpbne]
  have hstclean : CleanL (splitChars t) := by
    intro p hp
    exact hclean p (by rw [hsplit]; exact List.mem_append.mpr (Or.inr hp))
  have htne : t ≠ [] := by
    intro hEq
    have : ([] : Piece) ∈ splitChars t := by rw [hEq]; simp [splitChars]
    exact (hstclean [] this).1 rfl
  have htdot : t ≠ ['.'] := by
    intro hEq
    have : (['.'] : Piece) ∈ splitChars t := by
      rw [hEq, splitChars_no_slash ['.'] (by simp)]
      simp
    exact (hstclean ['.'] this).2.1 rfl
  have htabs : ¬ (isAbsolute ⟨t⟩ = true) := by
    intro hcontra
    cases htc : t with
    | nil => exact htne htc
    | cons c t' =>
      rw [htc] at hcontra
      simp only [isAbsolute, decide_eq_true_eq] at hcontra
      subst hcontra
      have : ([] : Piece) ∈ splitChars t := by
        rw [htc]
        simp [splitChars]
      exact (hstclean [] this).1 rfl
  have hqeq : base ++ "/" ++ ⟨t⟩ = q := by
    apply str_ext
    rw [String.data_append, String.data_append, hqdata]
  have hres : resolveAbs q = q := by
    rw [hform]
    exact resolveAbs_join pq hclean
  have htrim : jsTrim (String.mk t) = String.mk t := by
    rw [← hrel]
    exact ht
  have htns : ¬ (String.mk t = "" ∨ String.mk t = ".") := by
    rintro (hEq | hEq)
    · exact htne (congrArg String.data hEq)
    · exact htdot (congrArg String.data hEq)
  rw [hrel]
  simp only [safePath, Option.getD_some]
  rw [htrim, if_neg htns, if_neg htabs, hqeq]
  simp only [hres, hnb]
  rw [if_neg (show ¬ (¬ (strStartsWith q (base ++ "/") = true) ∧ ¬ (q = base)) from
    fun hcontra => hcontra.1 hpre)]

/-! ## mkdir does not disturb the target path -/

theorem mkdirPieces_lookup (todo : List Piece) (done : List Piece) (fsys fs' : FS)
    (key : String) (h : mkdirPieces fsys done todo = .ok fs')
    (hk : key ∉ chainPaths done todo) :
    fsLookup fs' key = fsLookup fsys key := by
  induction todo generalizing done fsys with
  | nil =>
    simp only [mkdirPieces] at h
    injection h with h'
    rw [h']
  | cons c rest ih =>
    simp only [mkdirPieces] at h
    simp only [chainPaths, List.mem_cons] at hk
    push_neg at hk
    obtain ⟨hk1, hk2⟩ := hk
    split at h
    · exact Except.noConfusion h
    · exact ih (done ++ [c]) fsys h hk2
    · rw [ih (done ++ [c]) _ h hk2]
      simp only [fsLookup]
      rw [if_neg (fun hEq => hk1 hEq.symm)]

theorem mem_chainPaths (todo : List Piece) (done : List Piece) (x : String)
    (hx : x ∈ chainPaths done todo) :
    ∃ pre, pre ≠ [] ∧ pre <+: todo ∧ x = ⟨joinPieces (done ++ pre)⟩ := by
  induction todo generalizing done with
  | nil => simp [chainPaths] at hx
  | cons c rest ih =>
    simp only [chainPaths, List.mem_cons] at hx
    rcases hx with rfl | hx
    · exact ⟨[c], by simp, ⟨rest, rfl⟩, rfl⟩
    · obtain ⟨pre, hne, hpre, hEq⟩ := ih (done ++ [c]) hx
      refine ⟨c :: pre, by simp, ?_, ?_⟩
      · obtain ⟨rem, hrem⟩ := hpre
        exact ⟨rem, by rw [← hrem]; rfl⟩
      · rw [hEq, List.append_assoc]
        rfl

theorem normPieces_join (qs : List Piece) (h : CleanL qs) :
    normPieces (splitChars (joinPieces qs)) = qs := by
  cases hqs : qs with
  | nil => rfl
  | cons r rs =>
    rw [← hqs]
    rw [show splitChars (joinPieces qs) = [] :: splitChars (interPieces qs)
        from by simp [joinPieces, splitChars]]
    rw [splitChars_inter qs h (by rw [hqs]; simp), normPieces_cons_nil]
    exact (foldl_normStep_clean qs [] h).trans (by simp)

theorem mkdirRec_lookup (fsys fs' : FS) (abs : String) (ps : List Piece)
    (hclean : CleanL ps) (habs : abs = ⟨joinPieces ps⟩)
    (h : mkdirRec fsys (dirname abs) = .ok fs') :
    fsLookup fs' abs = fsLookup fsys abs := by
  have hdl : CleanL ps.dropLast := fun p hp => hclean p ((List.dropLast_sublist ps).mem hp)
  have hd : dirname abs = ⟨joinPieces ps.dropLast⟩ := by
    rw [habs]
    exact dirname_join ps hclean
  rw [hd] at h
  unfold mkdirRec at h
  rw [show (String.mk (joinPieces ps.dropLast)).data = joinPieces ps.dropLast from rfl,
    normPieces_join ps.dropLast hdl] at h
  apply mkdirPieces_lookup ps.dropLast [] fsys fs' abs h
  intro hmem
  obtain ⟨pre, hne, hpre, hEq⟩ := mem_chainPaths ps.dropLast [] abs hmem
  rw [List.nil_append] at hEq
  have hpreclean : CleanL pre := fun p hp => hdl p (hpre.subset hp)
  have : pre = ps := by
    apply joinPieces_inj pre ps hpreclean hclean
    have := hEq.symm.trans habs
    exact congrArg String.data this
  have hlen1 : pre.length ≤ ps.dropLast.length := hpre.length_le
  rw [this, List.length_dropLast] at hlen1
  have hlen2 : 0 < ps.length := List.length_pos.mpr (by
    intro hnil
    rw [this, hnil] at hne
    exact hne rfl)
  omega

/-! ## Elimination lemmas for the write handlers -/

theorem fs_write_ok_elim (base : String) (fsys : FS) (p : Option String)
    (c : Option String) (fsOut : FS) (m : String)
    (h : fs_write base fsys p c = .ok (fsOut, m)) :
    ∃ abs fs1, safePath base p = .ok abs ∧ mkdirRec fsys (dirname abs) = .ok fs1 ∧
      fsOut = (abs, .file (utf8Bytes (c.getD ""))) :: fs1 ∧
      m = "Written " ++ toString ((c.map String.length).getD 0) ++ " chars to " ++ abs := by
  unfold fs_write at h
  cases hsafe : safePath base p with
  | error e => rw [hsafe] at h; exact Except.noConfusion h
  | ok abs =>
    simp only [hsafe] at h
    cases hmk : mkdirRec fsys (dirname abs) with
    | error e => simp only [hmk] at h; exact Except.noConfusion h
    | ok fs1 =>
      simp only [hmk] at h
      cases hlk : fsLookup fs1 abs with
      | none =>
        simp only [hlk] at h
        injection h with h'
        exact ⟨abs, fs1, rfl, hmk, congrArg Prod.fst h'.symm, congrArg Prod.snd h'.symm⟩
      | some nd =>
        cases nd with
        | dir => simp only [hlk] at h; exact Except.noConfusion h
        | file bs =>
          simp only [hlk] at h
          injection h with h'
          exact ⟨abs, fs1, rfl, hmk, congrArg Prod.fst h'.symm, congrArg Prod.snd h'.symm⟩

theorem fs_append_ok_elim (base : String) (fsys : FS) (p : Option String)
    (c : Option String) (fsOut : FS) (m : String)
    (h : fs_append base fsys p c = .ok (fsOut, m)) :
    ∃ abs fs1, safePath base p = .ok abs ∧ mkdirRec fsys (dirname abs) = .ok fs1 ∧
      m = "Appended " ++ toString ((c.map String.length).getD 0) ++ " chars to " ++ abs ∧
      ((fsLookup fs1 abs = none ∧ fsOut = (abs, .file (utf8Bytes (c.getD ""))) :: fs1) ∨
       (∃ bs, fsLookup fs1 abs = some (.file bs) ∧
          fsOut = (abs, .file (bs ++ utf8Bytes (c.getD ""))) :: fs1)) := by
  unfold fs_append at h
  cases hsafe : safePath base p with
  | error e => rw [hsafe] at h; exact Except.noConfusion h
  | ok abs =>
    simp only [hsafe] at h
    cases hmk : mkdirRec fsys (dirname abs) with
    | error e => simp only [hmk] at h; exact Except.noConfusion h
    | ok fs1 =>
      simp only [hmk] at h
      cases hlk : fsLookup fs1 abs with
      | none =>
        simp only [hlk] at h
        injection h with h'
        exact ⟨abs, fs1, rfl, hmk, congrArg Prod.snd h'.symm,
          Or.inl ⟨hlk, congrArg Prod.fst h'.symm⟩⟩
      | some nd =>
        cases nd with
        | dir => simp only [hlk] at h; exact Except.noConfusion h
        | file bs =>
          simp only [hlk] at h
          injection h with h'
          exact ⟨abs, fs1, rfl, hmk, congrArg Prod.snd h'.symm,
            Or.inr ⟨bs, hlk, congrArg Prod.fst h'.symm⟩⟩

/-! ## Claim theorems -/

/-- C1: `safePath` accepts a requested path exactly when its normalized
absolute candidate (empty or `"."` meaning the root; absolute requests
taken verbatim; relative ones joined to the root; then normalized by pure
string algebra) equals the root or equals the root followed by the path
separator followed by anything; every other request — siblings, ancestors,
or strings that merely share the root's prefix without a separator
boundary — yields the `containment` error, and the model is pure string
algebra, so no filesystem state is consulted. -/
theorem claim_C1_safePath_accept_iff (base : String) (hb : NormBase base)
    (raw : Option String) (q : String) :
    safePath base raw = .ok q ↔
      q = pathCandidate base raw ∧
        (q = base ∨ strStartsWith q (base ++ "/") = true) :=
  safePath_ok_iff base hb raw q

theorem claim_C1_witness :
    safePath "/base" (some "docs/a.txt") = .ok "/base/docs/a.txt" :=
  (claim_C1_safePath_accept_iff "/base" (by decide) (some "docs/a.txt")
    "/base/docs/a.txt").mpr ⟨by decide, Or.inr (by decide)⟩

/-- C3: for every requested path that resolves to the root itself (under
any spelling), `fs_delete` fails with `forbiddenTarget` for every
filesystem state — the guard compares the resolved path with the root
before any filesystem lookup, so nothing is removed. -/
theorem claim_C3_delete_root_forbidden (base : String) (fsys : FS) (p : Option String)
    (h : safePath base p = .ok base) :
    fs_delete base fsys p = .error .forbiddenTarget := by
  unfold fs_delete
  simp only [h]
  simp

theorem claim_C3_witness :
    fs_delete "/base" [("/base/f", .file [104]), ("/base", .dir)] (some "x/..")
      = .error .forbiddenTarget :=
  claim_C3_delete_root_forbidden "/base" [("/base/f", .file [104]), ("/base", .dir)]
    (some "x/..") (by decide)

/-- C9: every accepted spelling of the root (empty, whitespace, `"."`, the
absolute root itself, or any path like `"sub/.."` whose normalized
candidate equals the root) makes `safePath` return the root string
character for character, so the string-equality guard of `fs_delete`
blocks every spelling of the root. -/
theorem claim_C9_root_spelling (base : String) (fsys : FS) (raw : Option String)
    (hb : NormBase base) (hroot : pathCandidate base raw = base) :
    safePath base raw = .ok base ∧ fs_delete base fsys raw = .error .forbiddenTarget := by
  have hok : safePath base raw = .ok base :=
    (safePath_ok_iff base hb raw base).mpr ⟨hroot.symm, Or.inl rfl⟩
  refine ⟨hok, ?_⟩
  unfold fs_delete
  simp only [hok]
  simp

theorem fsLookup_cons_self (abs : String) (nd : FNode) (rest : FS) :
    fsLookup ((abs, nd) :: rest) abs = some nd := by
  simp [fsLookup]

/-- C4: corrected form.  Every accepted request resolves to an absolute
path that is the root or starts with `root + "/"`; and re-resolving the
result through its path-relative-to-root form returns the identical
absolute path, provided that relative form is unchanged by whitespace
trimming.  (The proviso is forced: `safePath` trims every request, so a
resolved path whose last component ends in whitespace does not round-trip;
see the counterexample.) -/
theorem claim_C4_resolve_roundtrip (base : String) (hb : NormBase base)
    (raw : Option String) (q : String) (h : safePath base raw = .ok q) :
    (isAbsolute q = true ∧ (q = base ∨ strStartsWith q (base ++ "/") = true)) ∧
    (jsTrim (relToRoot base q) = relToRoot base q →
      safePath base (some (relToRoot base q)) = .ok q) := by
  obtain ⟨pq, hclean, hform⟩ := safePath_ok_form base hb raw q h
  have hcases : q = base ∨ strStartsWith q (base ++ "/") = true :=
    ((safePath_ok_iff base hb raw q).mp h).2
  constructor
  · exact ⟨by rw [hform]; rfl, hcases⟩
  · intro ht
    rcases hcases with hqb | hpre
    · rw [hqb]
      have h1 : relToRoot base base = "" := by simp [relToRoot]
      rw [h1]
      unfold safePath
      rw [if_pos (Or.inl (show jsTrim ((some "").getD "") = "" by decide))]
    · exact safePath_relative_roundtrip base hb q pq hclean hform hpre ht

/-- C4 counterexample: the request `"a /."` resolves to `"/base/a "`
(trailing space), whose relative form `"a "` is trimmed to `"a"` on the
next call and resolves to the different path `"/base/a"`: resolution is
not idempotent on accepted paths, contradicting the claim as stated. -/
theorem claim_C4_counterexample :
    safePath "/base" (some "a /.") = .ok "/base/a " ∧
    relToRoot "/base" "/base/a " = "a " ∧
    safePath "/base" (some "a ") = .ok "/base/a" ∧
    ("/base/a" : String) ≠ "/base/a " := by decide

theorem claim_C4_witness :
    safePath "/base" (some (relToRoot "/base" "/base/sub/x")) = .ok "/base/sub/x" :=
  (claim_C4_resolve_roundtrip "/base" (by decide) (some "sub/x") "/base/sub/x"
    (by decide)).2 (by decide)

theorem claim_C9_witness :
    safePath "/base" (some "sub/..") = .ok "/base" ∧
      fs_delete "/base" [("/base/sub", .dir)] (some "sub/..")
        = .error .forbiddenTarget :=
  claim_C9_root_spelling "/base" [("/base/sub", .dir)] (some "sub/..")
    (by decide) (by decide)


/-- C5: corrected form.  Writing `c` then reading (default cap) returns
exactly the UTF-8 bytes of `c` truncated to 1 MiB; and starting from a
state where the target does not yet exist, appending `a` then `b` then
reading returns the bytes of `a ++ b` truncated to 1 MiB.  (The fresh-file
premise is forced: appending to a file that already holds text returns
that text followed by `a ++ b`; see the counterexample.) -/
theorem claim_C5_write_read_append (base : String) (hb : NormBase base) (fsys : FS)
    (p : Option String) (c a b : String) :
    (∀ fs1 m, fs_write base fsys p (some c) = .ok (fs1, m) →
       fs_read base fs1 p none = .ok ((utf8Bytes c).take (1024 * 1024))) ∧
    (∀ abs fsA mA fsB mB, safePath base p = .ok abs → fsLookup fsys abs = none →
       fs_append base fsys p (some a) = .ok (fsA, mA) →
       fs_append base fsA p (some b) = .ok (fsB, mB) →
       fs_read base fsB p none = .ok ((utf8Bytes (a ++ b)).take (1024 * 1024))) := by
  constructor
  · intro fs1 m h
    obtain ⟨abs, fs1p, hsafe, hmk, hout, hmsg⟩ :=
      fs_write_ok_elim base fsys p (some c) fs1 m h
    subst hout
    unfold fs_read
    simp only [hsafe, fsLookup_cons_self, Option.getD_some, Option.getD_none]
    rw [take_min_len]
  · intro rp fsA mA fsB mB hsafe hnone hA hB
    obtain ⟨psAbs, hpsClean, hpsForm⟩ := safePath_ok_form base hb p rp hsafe
    obtain ⟨abs1, fs1, hsafe1, hmk1, hmsg1, hcase1⟩ :=
      fs_append_ok_elim base fsys p (some a) fsA mA hA
    have habs1 : abs1 = rp := by
      rw [hsafe] at hsafe1
      exact (Except.ok.inj hsafe1).symm
    rw [habs1] at hmk1 hcase1
    have hpres1 : fsLookup fs1 rp = fsLookup fsys rp :=
      mkdirRec_lookup fsys fs1 rp psAbs hpsClean hpsForm hmk1
    rcases hcase1 with ⟨hlk1, hout1⟩ | ⟨bs, hlk1, hout1⟩
    · subst hout1
      obtain ⟨abs2, fs2, hsafe2, hmk2, hmsg2, hcase2⟩ :=
        fs_append_ok_elim base _ p (some b) fsB mB hB
      have habs2 : abs2 = rp := by
        rw [hsafe] at hsafe2
        exact (Except.ok.inj hsafe2).symm
      rw [habs2] at hmk2 hcase2
      have hpres2 : fsLookup fs2 rp
          = fsLookup ((rp, FNode.file (utf8Bytes ((some a).getD ""))) :: fs1) rp :=
        mkdirRec_lookup _ fs2 rp psAbs hpsClean hpsForm hmk2
      rw [fsLookup_cons_self] at hpres2
      rcases hcase2 with ⟨hlk2, hout2⟩ | ⟨bs2, hlk2, hout2⟩
      · rw [hpres2] at hlk2
        exact Option.noConfusion hlk2
      · rw [hpres2] at hlk2
        injection hlk2 with h1
        injection h1 with h2
        subst hout2
        unfold fs_read
        simp only [hsafe, fsLookup_cons_self, Option.getD_some, Option.getD_none]
        rw [← h2, ← utf8Bytes_append, take_min_len]
        rfl
    · rw [hpres1, hnone] at hlk1
      exact Option.noConfusion hlk1

/-- C5 counterexample: on a filesystem where `/b/f` already holds `"x"`,
appending `"a"` then `"b"` and reading returns `"xab"`, not `"ab"`: the
claim as stated fails for a pre-existing file. -/
theorem claim_C5_counterexample :
    fs_append "/b" exFS0 (some "f") (some "a") = .ok (exFSA, "Appended 1 chars to /b/f") ∧
    fs_append "/b" exFSA (some "f") (some "b") = .ok (exFSB, "Appended 1 chars to /b/f") ∧
    fs_read "/b" exFSB (some "f") none = .ok (utf8Bytes "xab") ∧
    utf8Bytes "xab" ≠ utf8Bytes ("a" ++ "b") := by decide

theorem claim_C5_witness :
    fs_read "/b" exFSW (some "f") none = .ok ((utf8Bytes "hi").take (1024 * 1024)) :=
  (claim_C5_write_read_append "/b" (by decide) [] (some "f") "hi" "x" "y").1 exFSW
    "Written 2 chars to /b/f" (by decide)

/-- C8: the `read_file` handler computes the same result as `fs_read` on
every input, and the `write_file` handler performs the same filesystem
effect and returns the same confirmation message as `fs_write`; the alias
pairs differ only in console logging, which has no observable effect in
the model. -/
theorem claim_C8_alias_equivalence (base : String) (fsys : FS) (p : Option String)
    (maxBytes : Option Nat) (c : Option String) :
    read_file base fsys p maxBytes = fs_read base fsys p maxBytes ∧
    write_file base fsys p c = fs_write base fsys p c :=
  ⟨rfl, rfl⟩

/-- C10: calling `fs_write` or `fs_append` with an absent content argument
behaves exactly like the empty string: the write leaves an empty file, the
append leaves the file unchanged (or creates it empty), and both report
`0 chars` in their confirmation message. -/
theorem claim_C10_absent_content (base : String) (hb : NormBase base) (fsys : FS)
    (p : Option String) :
    fs_write base fsys p none = fs_write base fsys p (some "") ∧
    fs_append base fsys p none = fs_append base fsys p (some "") ∧
    (∀ abs fs2 m, safePath base p = .ok abs → fs_write base fsys p none = .ok (fs2, m) →
       m = "Written 0 chars to " ++ abs ∧ fsLookup fs2 abs = some (.file [])) ∧
    (∀ abs fs2 m bs, safePath base p = .ok abs → fsLookup fsys abs = some (.file bs) →
       fs_append base fsys p none = .ok (fs2, m) →
       m = "Appended 0 chars to " ++ abs ∧ fsLookup fs2 abs = some (.file bs)) ∧
    (∀ abs fs2 m, safePath base p = .ok abs → fsLookup fsys abs = none →
       fs_append base fsys p none = .ok (fs2, m) →
       m = "Appended 0 chars to " ++ abs ∧ fsLookup fs2 abs = some (.file [])) := by
  refine ⟨rfl, rfl, ?_, ?_, ?_⟩
  · intro rp fs2 m hsafe h
    obtain ⟨abs1, fs1, hsafe1, hmk, hout, hmsg⟩ :=
      fs_write_ok_elim base fsys p none fs2 m h
    have habs1 : abs1 = rp := by
      rw [hsafe] at hsafe1
      exact (Except.ok.inj hsafe1).symm
    rw [habs1] at hout hmsg
    subst hout
    refine ⟨?_, ?_⟩
    · rw [hmsg]
      congr 1
    · rw [fsLookup_cons_self]
      rfl
  · intro rp fs2 m bs hsafe hfile h
    obtain ⟨psAbs, hpsClean, hpsForm⟩ := safePath_ok_form base hb p rp hsafe
    obtain ⟨abs1, fs1, hsafe1, hmk, hmsg, hcase⟩ :=
      fs_append_ok_elim base fsys p none fs2 m h
    have habs1 : abs1 = rp := by
      rw [hsafe] at hsafe1
      exact (Except.ok.inj hsafe1).symm
    rw [habs1] at hmk hmsg hcase
    have hpres : fsLookup fs1 rp = fsLookup fsys rp :=
      mkdirRec_lookup fsys fs1 rp psAbs hpsClean hpsForm hmk
    rcases hcase with ⟨hlk, hout⟩ | ⟨bs1, hlk, hout⟩
    · rw [hpres, hfile] at hlk
      exact Option.noConfusion hlk
    · rw [hpres, hfile] at hlk
      injection hlk with h1
      injection h1 with h2
      subst hout
      refine ⟨?_, ?_⟩
      · rw [hmsg]
        congr 1
      · rw [fsLookup_cons_self, h2]
        rw [show utf8Bytes ((none : Option String).getD "") = [] from rfl, List.append_nil]
  · intro rp fs2 m hsafe hnone h
    obtain ⟨psAbs, hpsClean, hpsForm⟩ := safePath_ok_form base hb p rp hsafe
    obtain ⟨abs1, fs1, hsafe1, hmk, hmsg, hcase⟩ :=
      fs_append_ok_elim base fsys p none fs2 m h
    have habs1 : abs1 = rp := by
      rw [hsafe] at hsafe1
      exact (Except.ok.inj hsafe1).symm
    rw [habs1] at hmk hmsg hcase
    have hpres : fsLookup fs1 rp = fsLookup fsys rp :=
      mkdirRec_lookup fsys fs1 rp psAbs hpsClean hpsForm hmk
    rcases hcase with ⟨hlk, hout⟩ | ⟨bs1, hlk, hout⟩
    · subst hout
      refine ⟨?_, ?_⟩
      · rw [hmsg]
        congr 1
      · rw [fsLookup_cons_self]
        rfl
    · rw [hpres, hnone] at hlk
      exact Option.noConfusion hlk

theorem claim_C10_witness :
    "Appended 0 chars to /b/f" = "Appended 0 chars to " ++ "/b/f" ∧
      fsLookup exFSC "/b/f" = some (.file [120]) :=
  (claim_C10_absent_content "/b" (by decide) exFS0 (some "f")).2.2.2.1 "/b/f" exFSC
    "Appended 0 chars to /b/f" [120] (by decide) (by decide) (by decide)


/-! ## Session-registry lemmas -/

theorem hasToken_removeToken_self (l : Registry) (t : String) :
    hasToken (removeToken l t) t = false := by
  induction l with
  | nil => rfl
  | cons s rest ih =>
    unfold removeToken
    by_cases hst : s = t
    · rw [if_pos hst]
      exact ih
    · rw [if_neg hst]
      unfold hasToken
      rw [if_neg hst]
      exact ih

theorem handleMcp_post_no_session (sessions : Registry) (fresh : String)
    (sid : Option String) (h : lookupSession sessions sid = none) :
    handleMcp sessions fresh .post sid false
      = (sessions, .badRequest (-32000), []) := by
  simp [handleMcp, h]

theorem handleMcp_delete_known (sessions : Registry) (fresh t : String)
    (ht : hasToken sessions t = true) :
    handleMcp sessions fresh .delete (some t) false
      = (removeToken sessions t, .okEmpty, [.transportClosed t]) := by
  simp [handleMcp, lookupSession, ht]

theorem handleMcp_delete_unknown (sessions : Registry) (fresh t : String)
    (ht : hasToken sessions t = false) :
    handleMcp sessions fresh .delete (some t) false = (sessions, .okEmpty, []) := by
  simp [handleMcp, lookupSession, ht]

theorem lookupSession_unknown (sessions : Registry) (t : String)
    (ht : hasToken sessions t = false) :
    lookupSession sessions (some t) = none := by
  simp [lookupSession, ht]

/-- C2: corrected form.  A POST carrying an unrecognized session token
whose body is not an initialize request is rejected with the 400 client
error (JSON-RPC code -32000) and the registry is unchanged — no session is
minted.  (The claim's further assertion that a GET stream-open with an
unrecognized token is also rejected is false: the route creates a fresh
session for any GET without a registered entry, token or not; see the
counterexample.) -/
theorem claim_C2_unknown_token_post (sessions : Registry) (fresh sid : String)
    (h : hasToken sessions sid = false) :
    handleMcp sessions fresh .post (some sid) false
      = (sessions, .badRequest (-32000), []) :=
  handleMcp_post_no_session sessions fresh (some sid) (lookupSession_unknown sessions sid h)

/-- C2 counterexample: with the registry holding only `"live"`, a GET
bearing the unrecognized token `"bogus"` is not rejected: it mints a brand
new session `"fresh1"` and opens a stream on it, contradicting the claim
that no unknown-token request ever creates a session past the handshake. -/
theorem claim_C2_counterexample :
    hasToken ["live"] "bogus" = false ∧
    handleMcp ["live"] "fresh1" .get (some "bogus") false
      = (["fresh1", "live"], .stream "fresh1", [.created "fresh1"]) := by decide

theorem claim_C2_witness :
    handleMcp ["live"] "fresh1" .post (some "bogus") false
      = (["live"], .badRequest (-32000), []) :=
  claim_C2_unknown_token_post ["live"] "fresh1" "bogus" (by decide)

/-- C6: once a session's token has been removed by DELETE, a subsequent
non-initialization POST bearing that token is rejected at the registry
boundary with the 400 client error carrying code -32000, the registry is
unchanged (the session is not resurrected), and the response is identical
to that for a token never seen; the same rejection applies to any
non-initialization POST bearing no registered session. -/
theorem claim_C6_closed_token_like_unknown (sessions : Registry) (t f1 f2 : String)
    (ht : hasToken sessions t = true) :
    (handleMcp sessions f1 .delete (some t) false).1 = removeToken sessions t ∧
    hasToken (removeToken sessions t) t = false ∧
    handleMcp (removeToken sessions t) f2 .post (some t) false
      = (removeToken sessions t, .badRequest (-32000), []) ∧
    (∀ u, hasToken (removeToken sessions t) u = false →
       handleMcp (removeToken sessions t) f2 .post (some u) false
         = handleMcp (removeToken sessions t) f2 .post (some t) false) := by
  have hgone := hasToken_removeToken_self sessions t
  refine ⟨by rw [handleMcp_delete_known sessions f1 t ht], hgone, ?_, ?_⟩
  · exact handleMcp_post_no_session _ f2 (some t) (lookupSession_unknown _ t hgone)
  · intro u hu
    rw [handleMcp_post_no_session _ f2 (some u) (lookupSession_unknown _ u hu),
      handleMcp_post_no_session _ f2 (some t) (lookupSession_unknown _ t hgone)]

theorem claim_C6_witness :
    (handleMcp ["tok"] "f1" .delete (some "tok") false).1 = removeToken ["tok"] "tok" ∧
    hasToken (removeToken ["tok"] "tok") "tok" = false ∧
    handleMcp (removeToken ["tok"] "tok") "f2" .post (some "tok") false
      = (removeToken ["tok"] "tok", .badRequest (-32000), []) ∧
    (∀ u, hasToken (removeToken ["tok"] "tok") u = false →
       handleMcp (removeToken ["tok"] "tok") "f2" .post (some u) false
         = handleMcp (removeToken ["tok"] "tok") "f2" .post (some "tok") false) :=
  claim_C6_closed_token_like_unknown ["tok"] "tok" "f1" "f2" (by decide)

/-- C7: corrected form.  An explicit DELETE bearing a registered token
closes that session's transport and removes the registry entry, and a
second DELETE on the already-closed token is a no-op 200 (idempotent); the
administrative bulk-clear empties the registry, is idempotent and
immediate — but it closes no transport (the route only clears the map;
see the counterexample). -/
theorem claim_C7_close_and_clear (sessions : Registry) (t f : String)
    (ht : hasToken sessions t = true) :
    handleMcp sessions f .delete (some t) false
      = (removeToken sessions t, .okEmpty, [.transportClosed t]) ∧
    handleMcp (removeToken sessions t) f .delete (some t) false
      = (removeToken sessions t, .okEmpty, []) ∧
    (adminClear sessions).1 = [] ∧
    adminClear ((adminClear sessions).1) = adminClear sessions ∧
    (adminClear sessions).2.2 = ([] : List Effect) := by
  refine ⟨handleMcp_delete_known sessions f t ht, ?_, rfl, rfl, rfl⟩
  exact handleMcp_delete_unknown _ f t (hasToken_removeToken_self sessions t)

/-- C7 counterexample: clearing the registry while session `"s1"` is
active produces no `transportClosed` effect at all — the bulk-clear
removes the registry entry without releasing the transport binding,
contradicting the claim that both closing paths release the transport. -/
theorem claim_C7_counterexample :
    adminClear ["s1"] = ([], .okText "cleared", []) ∧
    Effect.transportClosed "s1" ∉ (adminClear ["s1"]).2.2 := by decide

theorem claim_C7_witness :
    handleMcp ["s1"] "f" .delete (some "s1") false
      = (removeToken ["s1"] "s1", .okEmpty, [.transportClosed "s1"]) ∧
    handleMcp (removeToken ["s1"] "s1") "f" .delete (some "s1") false
      = (removeToken ["s1"] "s1", .okEmpty, []) ∧
    (adminClear ["s1"]).1 = [] ∧
    adminClear ((adminClear ["s1"]).1) = adminClear ["s1"] ∧
    (adminClear ["s1"]).2.2 = ([] : List Effect) :=
  claim_C7_close_and_clear ["s1"] "s1" "f" (by decide)

end MCPFS
